import Mathlib

/-!
Shallow embedding of the rare-event nested-sampling estimator
(`src/nested_sampling.py`, with the cached-statistic Gibbs variant of
`src/refined_nested_sampling.py`).

Particle coordinates are modelled as rationals (`ℚ`); a population is a
list of rows (one row per particle).  Randomness — the resampling index
draws and the per-coordinate Gaussian proposals — is threaded explicitly
as an oracle `rand : ℕ → List ℕ × (ℕ → List ℚ)` giving, for each level,
the resampling indices and the proposal vector for each coordinate.
The level loop, which the Python code runs as `while True:`, is embedded
with explicit fuel; `none` means the fuel ran out without convergence.
-/

/-- A population: `N` rows of `n` coordinates each. -/
abbrev Pop : Type := List (List ℚ)

/-- Row-wise sums, `X.sum(axis=1)`. -/
def rowSums (X : Pop) : List ℚ := X.map List.sum

/-- The ascending sort used by numpy's order statistics. -/
def sortQ (l : List ℚ) : List ℚ := l.insertionSort (· ≤ ·)

/-- Order statistic `i` (0-based) of a vector, out-of-range giving `0`. -/
def sortedStat (l : List ℚ) (i : ℕ) : ℚ := (sortQ l).getD i 0

/-- Floor of a nonnegative rational as a natural number (executable). -/
def floorNat (x : ℚ) : ℕ := x.num.toNat / x.den

/-- `np.median`: the middle order statistic for odd length, the average of
the two central order statistics for even length. -/
def npMedian (l : List ℚ) : ℚ :=
  if l.length % 2 = 0 then
    (sortedStat l (l.length / 2 - 1) + sortedStat l (l.length / 2)) / 2
  else sortedStat l (l.length / 2)

/-- `np.percentile` with the default linear interpolation: virtual index
`h = (len−1)·q/100`, value `s[⌊h⌋] + (h−⌊h⌋)·(s[⌊h⌋+1] − s[⌊h⌋])`
(the upper neighbour defaulting to `s[⌊h⌋]` at the top end). -/
def percentile (l : List ℚ) (q : ℚ) : ℚ :=
  let h : ℚ := ((l.length : ℚ) - 1) * q / 100
  let i : ℕ := floorNat h
  let a : ℚ := sortedStat l i
  a + (h - (i : ℚ)) * ((sortQ l).getD (i + 1) a - a)

/-- Variance of the sample median via the inter-quartile density proxy
(`var_median` in `nested_sampling.py`):
`f(u) = (N/2)/(Q75 − Q50)` and `Var = 1/(4·N·f(u)²)` when `Q75 > Q50`,
and `+∞` (modelled as `none`) when `Q75 ≤ Q50`. -/
def var_median (sums : List ℚ) : Option ℚ :=
  let q75 := percentile sums 75
  let q50 := percentile sums 50
  if q50 < q75 then
    let f_u : ℚ := ((sums.length : ℚ) / 2) / (q75 - q50)
    some (1 / (4 * (sums.length : ℚ) * f_u ^ 2))
  else none

/-- Survivor selection: the rows whose statistic is at least `u`
(`X[sums >= u_next]`). -/
def survivors (u : ℚ) (X : Pop) : Pop := X.filter fun r => u ≤ r.sum

/-- Selection plus resampling-with-replacement: keep the survivors, then
rebuild the population by gathering survivor rows at the drawn indices
(`np.random.choice(n_survivors, size=N)` followed by a gather).  The
oracle's raw naturals are reduced modulo the survivor count, modelling a
uniform in-range draw. -/
def selectionResample (u : ℚ) (X : Pop) (idx : List ℕ) : Pop :=
  let S := survivors u X
  idx.map fun i => S.getD (i % S.length) []

/-- Accept test of one Gibbs coordinate update: the candidate statistic
`sum − X[:,j] + proposal` must stay at or above the threshold. -/
def gibbsAccept (u : ℚ) (j : ℕ) (r : List ℚ) (p : ℚ) : Bool :=
  u ≤ r.sum - r.getD j 0 + p

/-- One vectorised coordinate update of the sweep that recomputes the row
sums from the population (`nested_sampling.py`). -/
def gibbsStep (u : ℚ) (j : ℕ) (props : List ℚ) (X : Pop) : Pop :=
  (X.zip props).map fun rp =>
    if gibbsAccept u j rp.1 rp.2 then rp.1.set j rp.2 else rp.1

/-- Number of accepted proposals at coordinate `j` (recomputing variant). -/
def gibbsCount (u : ℚ) (j : ℕ) (props : List ℚ) (X : Pop) : ℕ :=
  (X.zip props).countP fun rp => gibbsAccept u j rp.1 rp.2

/-- One full Gibbs sweep over the `n` coordinates, returning the updated
population and the total number of accepted proposals. -/
def gibbsSweep (u : ℚ) (n : ℕ) (props : ℕ → List ℚ) (X : Pop) : Pop × ℕ :=
  (List.range n).foldl
    (fun s j => (gibbsStep u j (props j) s.1, s.2 + gibbsCount u j (props j) s.1))
    (X, 0)

/-- Accept test of the cached-statistic variant
(`refined_nested_sampling.py`): the candidate statistic is computed from
the running cache instead of the row. -/
def gibbsAcceptC (u : ℚ) (j : ℕ) (rc : List ℚ × ℚ) (p : ℚ) : Bool :=
  u ≤ rc.2 - rc.1.getD j 0 + p

/-- One coordinate update of the cached-statistic sweep: on acceptance,
both the coordinate and the cached statistic are overwritten. -/
def gibbsStepC (u : ℚ) (j : ℕ) (props : List ℚ) (S : List (List ℚ × ℚ)) :
    List (List ℚ × ℚ) :=
  (S.zip props).map fun rp =>
    if gibbsAcceptC u j rp.1 rp.2 then
      (rp.1.1.set j rp.2, rp.1.2 - rp.1.1.getD j 0 + rp.2)
    else rp.1

/-- Number of accepted proposals at coordinate `j` (cached variant). -/
def gibbsCountC (u : ℚ) (j : ℕ) (props : List ℚ) (S : List (List ℚ × ℚ)) : ℕ :=
  (S.zip props).countP fun rp => gibbsAcceptC u j rp.1 rp.2

/-- Full cached-statistic Gibbs sweep: initialise the cache with the row
sums (`current_sums = samples.sum(axis=1)`), sweep the coordinates, and
return the final population and total acceptance count. -/
def gibbsSweepC (u : ℚ) (n : ℕ) (props : ℕ → List ℚ) (X : Pop) : Pop × ℕ :=
  let res :=
    (List.range n).foldl
      (fun s j => (gibbsStepC u j (props j) s.1, s.2 + gibbsCountC u j (props j) s.1))
      (X.map fun r => (r, r.sum), 0)
  (res.1.map Prod.fst, res.2)

/-- Mutable state of the level loop of `nested_sampling`. -/
structure LevelState where
  X : Pop
  thresholds : List ℚ
  vars : List (Option ℚ)
  accept_rates : List ℚ
  iteration : ℕ
deriving DecidableEq

/-- The dictionary returned by `nested_sampling`. -/
structure RunResult where
  probability : ℚ
  K : ℕ
  thresholds : List ℚ
  vars : List (Option ℚ)
  accept_rates : List ℚ
  final_samples : Pop
deriving DecidableEq

/-- One iteration of the `while True:` loop of `nested_sampling`: compute
the sums, record the median threshold and its variance estimate, stop if
the target is reached (returning the result, the stopping level adding no
acceptance rate), otherwise select, resample, run one Gibbs sweep, record
the acceptance rate and increment the level counter. -/
def levelStep (n : ℕ) (target : ℚ) (N : ℕ) (idx : List ℕ) (props : ℕ → List ℚ)
    (st : LevelState) : LevelState ⊕ RunResult :=
  let sums := rowSums st.X
  let u := npMedian sums
  let v := var_median sums
  if target ≤ u then
    .inr { probability := (1/2 : ℚ) ^ st.iteration, K := st.iteration,
           thresholds := st.thresholds ++ [u], vars := st.vars ++ [v],
           accept_rates := st.accept_rates, final_samples := st.X }
  else
    let X1 := selectionResample u st.X idx
    let sw := gibbsSweep u n props X1
    .inl { X := sw.1, thresholds := st.thresholds ++ [u],
           vars := st.vars ++ [v],
           accept_rates := st.accept_rates ++ [(sw.2 : ℚ) / ((N : ℚ) * (n : ℚ))],
           iteration := st.iteration + 1 }

/-- The level loop, run with explicit fuel; `none` means the fuel was
exhausted before convergence (the Python loop has no such guard and would
simply keep running). -/
def runLoop (n : ℕ) (target : ℚ) (N : ℕ)
    (rand : ℕ → List ℕ × (ℕ → List ℚ)) : ℕ → LevelState → Option RunResult
  | 0, _ => none
  | fuel + 1, st =>
    match levelStep n target N (rand st.iteration).1 (rand st.iteration).2 st with
    | .inr res => some res
    | .inl st2 => runLoop n target N rand fuel st2

/-- Entry point `nested_sampling(n, a, N)`: target `n·a`, fresh population
`X0`, empty records, level counter `0`.  The code performs no parameter
validation before entering the loop. -/
def nested_sampling (n : ℕ) (a : ℚ) (N : ℕ) (X0 : Pop)
    (rand : ℕ → List ℕ × (ℕ → List ℚ)) (fuel : ℕ) : Option RunResult :=
  runLoop n ((n : ℚ) * a) N rand fuel
    { X := X0, thresholds := [], vars := [], accept_rates := [], iteration := 0 }

/-! ### Helper lemmas: floor, sorting, order statistics -/

lemma floorNat_cast_eq_floor (x : ℚ) (hx : 0 ≤ x) : (floorNat x : ℤ) = ⌊x⌋ := by
  rw [Rat.floor_def, floorNat]
  rw [Int.ofNat_ediv, Int.toNat_of_nonneg (Rat.num_nonneg.mpr hx)]

lemma floorNat_eq_natFloor (x : ℚ) (hx : 0 ≤ x) : floorNat x = ⌊x⌋₊ := by
  have h := floorNat_cast_eq_floor x hx
  have h2 : (floorNat x : ℤ).toNat = ⌊x⌋.toNat := by rw [h]
  simpa [Int.floor_toNat] using h2

lemma floorNat_eq_div (a b : ℕ) : floorNat ((a : ℚ) / (b : ℚ)) = a / b := by
  rcases Nat.eq_zero_or_pos b with hb | hb
  · subst hb; simp [floorNat]
  · have h0 : (0:ℚ) ≤ (a : ℚ) / (b : ℚ) := by positivity
    have h1 : (floorNat ((a : ℚ) / (b : ℚ)) : ℤ) = (a : ℤ) / (b : ℤ) := by
      rw [floorNat_cast_eq_floor _ h0, Rat.floor_natCast_div_natCast]
    have h2 : ((a / b : ℕ) : ℤ) = (a : ℤ) / (b : ℤ) := Int.ofNat_ediv a b
    omega

lemma floorNat_eval (x : ℚ) (a b : ℕ) (h : x = (a : ℚ) / (b : ℚ)) :
    floorNat x = a / b := by rw [h, floorNat_eq_div]

lemma sortQ_perm (l : List ℚ) : (sortQ l).Perm l := List.perm_insertionSort _ l

lemma sortQ_length (l : List ℚ) : (sortQ l).length = l.length :=
  (sortQ_perm l).length_eq

lemma sortQ_sorted (l : List ℚ) : (sortQ l).Sorted (· ≤ ·) :=
  List.sorted_insertionSort _ l

lemma sortedStat_mem (l : List ℚ) (i : ℕ) (hi : i < l.length) :
    sortedStat l i ∈ l := by
  have hi2 : i < (sortQ l).length := by rwa [sortQ_length]
  rw [sortedStat, List.getD_eq_getElem _ _ hi2]
  exact (sortQ_perm l).mem_iff.mp (List.getElem_mem hi2)

lemma sortedStat_mono (l : List ℚ) {i j : ℕ} (hij : i ≤ j) (hj : j < l.length) :
    sortedStat l i ≤ sortedStat l j := by
  have hj2 : j < (sortQ l).length := by rwa [sortQ_length]
  have hi2 : i < (sortQ l).length := lt_of_le_of_lt hij hj2
  rw [sortedStat, sortedStat, List.getD_eq_getElem _ _ hi2, List.getD_eq_getElem _ _ hj2]
  exact List.Sorted.rel_get_of_le (sortQ_sorted l) (a := ⟨i, hi2⟩) (b := ⟨j, hj2⟩) hij

lemma sum_take_getElem_drop (r : List ℚ) (j : ℕ) (hj : j < r.length) :
    r.sum = (r.take j).sum + r[j] + (r.drop (j + 1)).sum := by
  conv_lhs => rw [← List.take_append_drop j r]
  rw [List.sum_append, List.drop_eq_getElem_cons hj, List.sum_cons]
  ring

lemma sum_set_eq (r : List ℚ) (j : ℕ) (p : ℚ) (hj : j < r.length) :
    (r.set j p).sum = r.sum - r.getD j 0 + p := by
  rw [List.sum_set, if_pos hj, List.getD_eq_getElem _ _ hj,
    sum_take_getElem_drop r j hj]
  ring

/-! ### Median lemmas -/

lemma le_npMedian (l : List ℚ) (c : ℚ) (h : ∀ x ∈ l, c ≤ x) (hne : l ≠ []) :
    c ≤ npMedian l := by
  have hlen : 0 < l.length := List.length_pos.mpr hne
  rw [npMedian]
  split
  · rename_i heven
    have h2 : 2 ≤ l.length := by omega
    have hhi : l.length / 2 < l.length := by omega
    have hlo : l.length / 2 - 1 < l.length := by omega
    have ha := h _ (sortedStat_mem l _ hlo)
    have hb := h _ (sortedStat_mem l _ hhi)
    linarith
  · exact h _ (sortedStat_mem l _ (by omega))

lemma npMedian_le_mid (l : List ℚ) (hne : l ≠ []) :
    npMedian l ≤ sortedStat l (l.length / 2) := by
  have hlen : 0 < l.length := List.length_pos.mpr hne
  rw [npMedian]
  split
  · rename_i heven
    have h2 : 2 ≤ l.length := by omega
    have hmono := sortedStat_mono l (i := l.length / 2 - 1) (j := l.length / 2)
      (by omega) (by omega)
    linarith
  · exact le_refl _

lemma countP_ge_of_drop (p : ℚ → Bool) (s : List ℚ) (k : ℕ)
    (h : ∀ x ∈ s.drop k, p x) : s.length - k ≤ s.countP p := by
  have hsplit : s = s.take k ++ s.drop k := (List.take_append_drop k s).symm
  have hcount : s.countP p = (s.take k).countP p + (s.drop k).countP p := by
    conv_lhs => rw [hsplit]
    exact List.countP_append _ _ _
  have hall : (s.drop k).countP p = (s.drop k).length :=
    List.countP_eq_length.mpr h
  have hdl : (s.drop k).length = s.length - k := List.length_drop k s
  omega

lemma median_survivor_count (l : List ℚ) :
    l.length - l.length / 2 ≤ l.countP (fun x => npMedian l ≤ x) := by
  rcases eq_or_ne l [] with rfl | hne
  · simp
  have hperm : l.countP (fun x => npMedian l ≤ x)
      = (sortQ l).countP (fun x => npMedian l ≤ x) :=
    ((sortQ_perm l).countP_eq _).symm
  have hdrop : ∀ x ∈ (sortQ l).drop (l.length / 2), decide (npMedian l ≤ x) = true := by
    intro x hx
    obtain ⟨j, hj, hxj⟩ := List.getElem_of_mem hx
    have hjlen : l.length / 2 + j < (sortQ l).length := by
      have hd := List.length_drop (l.length / 2) (sortQ l)
      omega
    have hx2 : x = sortedStat l (l.length / 2 + j) := by
      rw [← hxj, List.getElem_drop, sortedStat, List.getD_eq_getElem _ _ hjlen]
    have hmono := sortedStat_mono l (i := l.length / 2) (j := l.length / 2 + j)
      (Nat.le_add_right _ _) (by have hq := sortQ_length l; omega)
    have hmed := npMedian_le_mid l hne
    simp only [hx2, decide_eq_true_eq]
    linarith
  have hge := countP_ge_of_drop _ (sortQ l) (l.length / 2) hdrop
  rw [sortQ_length] at hge
  omega

/-! ### Gibbs sweep preservation helpers -/

lemma gibbsStep_preserves (u : ℚ) (j : ℕ) (p : List ℚ) (X : Pop)
    (hX : ∀ r ∈ X, u ≤ r.sum) : ∀ r ∈ gibbsStep u j p X, u ≤ r.sum := by
  intro r hr
  rw [gibbsStep, List.mem_map] at hr
  obtain ⟨rp, hrp, hfr⟩ := hr
  have hmem : rp.1 ∈ X := (List.of_mem_zip (by rwa [← Prod.mk.eta (p := rp)] at hrp)).1
  by_cases hacc : gibbsAccept u j rp.1 rp.2
  · rw [if_pos hacc] at hfr
    rcases lt_or_le j rp.1.length with hj | hj
    · have hsum := sum_set_eq rp.1 j rp.2 hj
      have hle : u ≤ rp.1.sum - rp.1.getD j 0 + rp.2 := by
        simpa [gibbsAccept] using hacc
      rw [← hfr, hsum]
      exact hle
    · rw [← hfr, List.set_eq_of_length_le hj]
      exact hX _ hmem
  · rw [if_neg hacc] at hfr
    rw [← hfr]
    exact hX _ hmem

lemma gibbsSweep_foldl_preserves (u : ℚ) (props : ℕ → List ℚ) (L : List ℕ) :
    ∀ (s : Pop × ℕ), (∀ r ∈ s.1, u ≤ r.sum) →
      ∀ r ∈ (L.foldl (fun s j =>
          (gibbsStep u j (props j) s.1, s.2 + gibbsCount u j (props j) s.1)) s).1,
        u ≤ r.sum := by
  induction L with
  | nil => intro s hs; exact hs
  | cons j L ih =>
    intro s hs
    exact ih _ (gibbsStep_preserves u j (props j) s.1 hs)

/-- C4: if every row of the population has statistic at least `u` before a
rejuvenation sweep with threshold `u`, then after every single-coordinate
Gibbs update, and hence at the end of the full sweep, every row still has
statistic at least `u`. -/
theorem gibbs_sweep_never_breaks_constraint (u : ℚ) (n : ℕ) (props : ℕ → List ℚ) :
    (∀ (j : ℕ) (p : List ℚ) (X : Pop), (∀ r ∈ X, u ≤ r.sum) →
      ∀ r ∈ gibbsStep u j p X, u ≤ r.sum) ∧
    (∀ X : Pop, (∀ r ∈ X, u ≤ r.sum) →
      ∀ r ∈ (gibbsSweep u n props X).1, u ≤ r.sum) := by
  refine ⟨fun j p X hX => gibbsStep_preserves u j p X hX, fun X hX => ?_⟩
  exact gibbsSweep_foldl_preserves u props (List.range n) (X, 0) hX

/-- Witness for C4 at a concrete input: a two-particle population with
statistics `3` and `4`, threshold `2`, one coordinate, proposals `0`. -/
theorem gibbs_sweep_never_breaks_constraint_witness :
    ∀ r ∈ (gibbsSweep 2 1 (fun _ => [0, 0]) [[3], [4]]).1, (2:ℚ) ≤ r.sum := by
  have hrows : ∀ r ∈ ([[3], [4]] : Pop), (2:ℚ) ≤ r.sum := by
    intro r hr
    fin_cases hr <;> norm_num
  exact (gibbs_sweep_never_breaks_constraint 2 1 (fun _ => [0, 0])).2 [[3], [4]] hrows

/-! ### Selection and resampling -/

lemma survivors_nonempty (u : ℚ) (X : Pop) (h : ∃ r ∈ X, u ≤ r.sum) :
    survivors u X ≠ [] := by
  obtain ⟨r, hr, hur⟩ := h
  have : r ∈ survivors u X := List.mem_filter.mpr ⟨hr, by simpa using hur⟩
  exact List.ne_nil_of_mem this

lemma selectionResample_length (u : ℚ) (X : Pop) (idx : List ℕ) :
    (selectionResample u X idx).length = idx.length := by
  rw [selectionResample, List.length_map]

lemma selectionResample_rows (u : ℚ) (X : Pop) (idx : List ℕ)
    (hsurv : survivors u X ≠ []) :
    ∀ r ∈ selectionResample u X idx, u ≤ r.sum ∧ r ∈ X := by
  have hpos : 0 < (survivors u X).length := List.length_pos.mpr hsurv
  intro r hr
  rw [selectionResample, List.mem_map] at hr
  obtain ⟨i, _, hri⟩ := hr
  have hlt : i % (survivors u X).length < (survivors u X).length :=
    Nat.mod_lt _ hpos
  have hmem : r ∈ survivors u X := by
    rw [← hri, List.getD_eq_getElem _ _ hlt]
    exact List.getElem_mem hlt
  have hmf := List.mem_filter.mp hmem
  exact ⟨by simpa using hmf.2, hmf.1⟩

/-- C5: when at least one input row survives the threshold, the
selection-plus-resampling step returns exactly as many rows as indices
drawn (the code draws `N`), and every returned row has statistic at least
`u` and is a copy of a surviving input row. -/
theorem selectionResample_spec (u : ℚ) (X : Pop) (idx : List ℕ) (N : ℕ)
    (hidx : idx.length = N) (hsurv : ∃ r ∈ X, u ≤ r.sum) :
    (selectionResample u X idx).length = N ∧
    ∀ r ∈ selectionResample u X idx, u ≤ r.sum ∧ r ∈ X := by
  refine ⟨by rw [selectionResample_length, hidx], ?_⟩
  exact selectionResample_rows u X idx (survivors_nonempty u X hsurv)

/-- Witness for C5: threshold `1`, population `[[0],[2]]` (one survivor),
three index draws. -/
theorem selectionResample_spec_witness :
    (selectionResample 1 [[0], [2]] [0, 1, 5] ).length = 3 ∧
    ∀ r ∈ selectionResample 1 [[0], [2]] [0, 1, 5], (1:ℚ) ≤ r.sum ∧ r ∈ [[0], [2]] := by
  exact selectionResample_spec 1 [[0], [2]] [0, 1, 5] 3 rfl
    ⟨[2], by norm_num⟩

lemma survivors_median_bound (X : Pop) (hne : X ≠ []) :
    X.length ≤ 2 * (survivors (npMedian (rowSums X)) X).length ∧
    1 ≤ (survivors (npMedian (rowSums X)) X).length := by
  have hlen : (rowSums X).length = X.length := List.length_map _ _
  have hcount := median_survivor_count (rowSums X)
  have hfilter : (survivors (npMedian (rowSums X)) X).length
      = (rowSums X).countP (fun s => npMedian (rowSums X) ≤ s) := by
    rw [survivors, ← List.countP_eq_length_filter, rowSums, List.countP_map]
    rfl
  have hXpos : 0 < X.length := List.length_pos.mpr hne
  constructor
  · omega
  · omega

lemma survivors_median_ne_nil (X : Pop) (hne : X ≠ []) :
    survivors (npMedian (rowSums X)) X ≠ [] := by
  have h := (survivors_median_bound X hne).2
  intro h0
  rw [h0] at h
  simp at h

/-- C9: for a nonempty population, at least half the rows (hence at least
one) have statistic at least the sample median of the row statistics, so
the survivor set of a median-threshold selection is never empty. -/
theorem median_survivors_not_empty (X : Pop) (hne : X ≠ []) :
    X.length ≤ 2 * (survivors (npMedian (rowSums X)) X).length ∧
    1 ≤ (survivors (npMedian (rowSums X)) X).length :=
  survivors_median_bound X hne

/-- Witness for C9: the population `[[0],[1]]`. -/
theorem median_survivors_not_empty_witness :
    ([[0], [1]] : Pop).length ≤ 2 * (survivors (npMedian (rowSums [[0], [1]])) [[0], [1]]).length ∧
    1 ≤ (survivors (npMedian (rowSums [[0], [1]])) [[0], [1]]).length :=
  median_survivors_not_empty [[0], [1]] (by simp)

/-! ### Concrete percentile evaluations used by counterexamples -/

lemma percentile_pair75 : percentile [0, 1] 75 = 3/4 := by
  have hf : floorNat ((3:ℚ)/4) = 0 := floorNat_eval _ 3 4 (by norm_num)
  norm_num [percentile, hf, sortedStat, sortQ, List.insertionSort, List.orderedInsert]

lemma percentile_pair50 : percentile [0, 1] 50 = 1/2 := by
  have hf : floorNat ((1:ℚ)/2) = 0 := floorNat_eval _ 1 2 (by norm_num)
  norm_num [percentile, hf, sortedStat, sortQ, List.insertionSort, List.orderedInsert]

lemma var_median_pair : var_median [0, 1] = some (1/128) := by
  rw [var_median]
  norm_num [percentile_pair75, percentile_pair50]

/-- C7 counterexample: on the statistic vector `[0, 1]` (so `N = 2`,
`Q75 − Q50 = 1/4`), the code's variance of the median is `1/128`, which
is not `(Q75 − Q50)² / N = 1/32`, refuting the claimed equivalence. -/
theorem var_median_not_iqr_sq_div_N :
    percentile [0, 1] 50 < percentile [0, 1] 75 ∧
    var_median [0, 1] ≠
      some ((percentile [0, 1] 75 - percentile [0, 1] 50) ^ 2 /
        ((([0, 1] : List ℚ).length : ℚ))) := by
  rw [percentile_pair75, percentile_pair50, var_median_pair]
  norm_num

/-- C7 (amended): the threshold estimator computes
`f(u) = (N/2)/(Q75 − Q50)` and `varU = 1/(4·N·f(u)²)` — equivalently
`(Q75 − Q50)²/N³` — whenever `Q75 > Q50`, and returns `+∞` (here `none`,
propagated unchanged) whenever `Q75 ≤ Q50`. -/
theorem var_median_formula (sums : List ℚ) :
    (percentile sums 50 < percentile sums 75 →
      var_median sums =
        some (1 / (4 * (sums.length : ℚ) *
          (((sums.length : ℚ) / 2) / (percentile sums 75 - percentile sums 50)) ^ 2)) ∧
      var_median sums =
        some ((percentile sums 75 - percentile sums 50) ^ 2 / (sums.length : ℚ) ^ 3)) ∧
    (percentile sums 75 ≤ percentile sums 50 → var_median sums = none) := by
  constructor
  · intro hlt
    have h1 : var_median sums =
        some (1 / (4 * (sums.length : ℚ) *
          (((sums.length : ℚ) / 2) / (percentile sums 75 - percentile sums 50)) ^ 2)) := by
      rw [var_median, if_pos hlt]
    refine ⟨h1, ?_⟩
    rw [h1]
    have hd : percentile sums 75 - percentile sums 50 ≠ 0 := by
      intro h0
      have : percentile sums 75 = percentile sums 50 := by linarith
      linarith
    rcases eq_or_ne ((sums.length : ℚ)) 0 with hN | hN
    · rw [hN]; norm_num
    · congr 1
      field_simp
      ring
  · intro hle
    rw [var_median, if_neg (by linarith)]

/-- Witness for C7 (amended) on `[0, 1]`: `Q50 = 1/2 < Q75 = 3/4` and both
formulas give `1/128`; the degenerate branch is exercised implicitly. -/
theorem var_median_formula_witness :
    var_median [0, 1] =
      some (1 / (4 * (([0, 1] : List ℚ).length : ℚ) *
        (((([0, 1] : List ℚ).length : ℚ) / 2) /
          (percentile [0, 1] 75 - percentile [0, 1] 50)) ^ 2)) ∧
    var_median [0, 1] =
      some ((percentile [0, 1] 75 - percentile [0, 1] 50) ^ 2 /
        (([0, 1] : List ℚ).length : ℚ) ^ 3) :=
  (var_median_formula [0, 1]).1
    (by rw [percentile_pair75, percentile_pair50]; norm_num)

/-! ### Missing parameter validation and missing iteration guard -/

lemma percentile_zero_pair (q : ℚ) : percentile [0, 0] q = 0 := by
  rw [percentile]
  have hs : sortQ [(0:ℚ), 0] = [0, 0] := by
    norm_num [sortQ, List.insertionSort, List.orderedInsert]
  rcases Nat.lt_or_ge (floorNat (((([0,0] : List ℚ).length : ℚ) - 1) * q / 100)) 2 with h2 | h2
  · interval_cases h : floorNat (((([0,0] : List ℚ).length : ℚ) - 1) * q / 100) <;>
      simp [sortedStat, hs, h]
  · have ha : sortedStat [0, 0] (floorNat (((([0,0] : List ℚ).length : ℚ) - 1) * q / 100)) = 0 := by
      rw [sortedStat, hs]
      exact List.getD_eq_default _ _ (by simpa using h2)
    have hb : (sortQ [0, 0]).getD
        (floorNat (((([0,0] : List ℚ).length : ℚ) - 1) * q / 100) + 1)
        (sortedStat [0, 0] (floorNat (((([0,0] : List ℚ).length : ℚ) - 1) * q / 100))) =
        sortedStat [0, 0] (floorNat (((([0,0] : List ℚ).length : ℚ) - 1) * q / 100)) := by
      rw [hs]
      exact List.getD_eq_default _ _ (le_trans h2 (Nat.le_succ _))
    rw [hb, ha]
    ring

lemma var_median_zero_pair : var_median [0, 0] = none := by
  rw [var_median]
  rw [percentile_zero_pair 75, percentile_zero_pair 50]
  norm_num

lemma npMedian_zero_pair : npMedian [0, 0] = 0 := by
  norm_num [npMedian, sortedStat, sortQ, List.insertionSort, List.orderedInsert]

/-- C2: the entry point performs no parameter validation: called with the
invalid dimension `n = 0` (the spec requires `n ≥ 1`) it does not raise,
enters the loop, and returns a normal-looking result with `K = 0` and
probability `1`. -/
theorem nested_sampling_no_invalid_parameter_check :
    nested_sampling 0 1 2 [[], []] (fun _ => ([], fun _ => [])) 1 =
      some { probability := 1, K := 0, thresholds := [0], vars := [none],
             accept_rates := [], final_samples := [[], []] } := by
  have hrs : rowSums [[], []] = [0, 0] := by simp [rowSums]
  have hmed : npMedian (rowSums [[], []]) = 0 := by rw [hrs, npMedian_zero_pair]
  have hvm : var_median (rowSums [[], []]) = none := by rw [hrs, var_median_zero_pair]
  simp only [nested_sampling, runLoop, levelStep, hmed, hvm]
  norm_num

lemma rowSums_stuck : rowSums [[0], [0]] = [0, 0] := by simp [rowSums]

lemma npMedian_stuck : npMedian (rowSums [[0], [0]]) = 0 := by
  rw [rowSums_stuck, npMedian_zero_pair]

lemma var_median_stuck : var_median (rowSums [[0], [0]]) = none := by
  rw [rowSums_stuck, var_median_zero_pair]

lemma selectionResample_stuck :
    selectionResample 0 [[0], [0]] [0, 0] = [[0], [0]] := by
  norm_num [selectionResample, survivors, List.filter]

lemma gibbsSweep_stuck :
    gibbsSweep 0 1 (fun _ => [0, 0]) [[0], [0]] = ([[0], [0]], 2) := by
  norm_num [gibbsSweep, gibbsStep, gibbsCount, gibbsAccept, List.range_succ,
    List.zip, List.zipWith, List.countP, List.countP.go]

lemma levelStep_stuck (st : LevelState) (h : st.X = [[0], [0]]) :
    ∃ t v a i, levelStep 1 1 2 [0, 0] (fun _ => [0, 0]) st =
      .inl { X := [[0], [0]], thresholds := t, vars := v,
             accept_rates := a, iteration := i } := by
  simp only [levelStep, h]
  rw [npMedian_stuck, if_neg (by norm_num), var_median_stuck,
    selectionResample_stuck, gibbsSweep_stuck]
  exact ⟨_, _, _, _, rfl⟩

/-- C1: the level loop has no maximum-iteration guard and no
ConvergenceFailure: on the degenerate input `n = 1`, target `1`, with an
all-zero two-particle population and all-zero proposals, every level
reproduces the same population, the median `0` never reaches the target,
and the loop never terminates — for every fuel bound the embedded loop is
still running (`none`); no distinct failure report exists in the code. -/
theorem runLoop_has_no_iteration_guard (fuel : ℕ) :
    ∀ st : LevelState, st.X = [[0], [0]] →
      runLoop 1 1 2 (fun _ => ([0, 0], fun _ => [0, 0])) fuel st = none := by
  induction fuel with
  | zero => intro st _; rfl
  | succ k ih =>
    intro st h
    obtain ⟨t, v, a, i, hstep⟩ := levelStep_stuck st h
    simp only [runLoop, hstep]
    exact ih _ rfl

/-- Witness for C1: the loop is still unfinished after 5 levels from the
initial all-zero state. -/
theorem runLoop_has_no_iteration_guard_witness :
    runLoop 1 1 2 (fun _ => ([0, 0], fun _ => [0, 0])) 5
      { X := [[0], [0]], thresholds := [], vars := [], accept_rates := [],
        iteration := 0 } = none :=
  runLoop_has_no_iteration_guard 5 _ rfl

/-! ### Level-step characterisation and the shape of results -/

lemma levelStep_inr_fields (n : ℕ) (target : ℚ) (N : ℕ) (idx : List ℕ)
    (props : ℕ → List ℚ) (st : LevelState) (res : RunResult)
    (h : levelStep n target N idx props st = .inr res) :
    res.probability = (1/2 : ℚ) ^ st.iteration ∧ res.K = st.iteration ∧
    res.thresholds = st.thresholds ++ [npMedian (rowSums st.X)] ∧
    res.accept_rates = st.accept_rates ∧ res.final_samples = st.X := by
  rw [levelStep] at h
  split at h
  · simp only [Sum.inr.injEq] at h
    rw [← h]
    exact ⟨rfl, rfl, rfl, rfl, rfl⟩
  · cases h

lemma levelStep_inl_fields (n : ℕ) (target : ℚ) (N : ℕ) (idx : List ℕ)
    (props : ℕ → List ℚ) (st st2 : LevelState)
    (h : levelStep n target N idx props st = .inl st2) :
    st2.X = (gibbsSweep (npMedian (rowSums st.X)) n props
      (selectionResample (npMedian (rowSums st.X)) st.X idx)).1 ∧
    st2.thresholds = st.thresholds ++ [npMedian (rowSums st.X)] ∧
    st2.accept_rates.length = st.accept_rates.length + 1 ∧
    st2.iteration = st.iteration + 1 := by
  rw [levelStep] at h
  split at h
  · cases h
  · simp only [Sum.inl.injEq] at h
    rw [← h]
    refine ⟨rfl, rfl, ?_, rfl⟩
    rw [List.length_append, List.length_cons, List.length_nil]

lemma runLoop_result_shape (n : ℕ) (target : ℚ) (N : ℕ)
    (rand : ℕ → List ℕ × (ℕ → List ℚ)) :
    ∀ (fuel : ℕ) (st : LevelState) (res : RunResult),
      runLoop n target N rand fuel st = some res →
      st.iteration = st.accept_rates.length →
      res.K = res.accept_rates.length ∧ res.probability = (1/2 : ℚ) ^ res.K := by
  intro fuel
  induction fuel with
  | zero => intro st res h _; cases h
  | succ k ih =>
    intro st res h hinv
    rw [runLoop] at h
    rcases hstep : levelStep n target N (rand st.iteration).1 (rand st.iteration).2 st with st2 | r
    · rw [hstep] at h
      have hf := levelStep_inl_fields _ _ _ _ _ _ _ hstep
      exact ih st2 res h (by omega)
    · rw [hstep] at h
      have hf := levelStep_inr_fields _ _ _ _ _ _ _ hstep
      have hres : r = res := by simpa using h
      rw [← hres]
      refine ⟨?_, ?_⟩
      · rw [hf.2.1, hf.2.2.2.1, hinv]
      · rw [hf.1, hf.2.1]

/-- C3: every terminating run returns a level count `K` equal to the
number of completed selection-plus-rejuvenation levels (one acceptance
rate is recorded per completed level, none for the convergence-triggering
level), and a probability estimate exactly `(1/2)^K`, which lies in
`(0, 1]`; `K ≥ 0` holds as `K` is a natural number. -/
theorem run_returns_two_pow_K (n : ℕ) (a : ℚ) (N : ℕ) (X0 : Pop)
    (rand : ℕ → List ℕ × (ℕ → List ℚ)) (fuel : ℕ) (res : RunResult)
    (h : nested_sampling n a N X0 rand fuel = some res) :
    res.K = res.accept_rates.length ∧
    res.probability = (1/2 : ℚ) ^ res.K ∧
    0 < res.probability ∧ res.probability ≤ 1 := by
  have hshape := runLoop_result_shape n ((n : ℚ) * a) N rand fuel _ res h rfl
  refine ⟨hshape.1, hshape.2, ?_, ?_⟩
  · rw [hshape.2]
    positivity
  · rw [hshape.2]
    apply pow_le_one₀ <;> norm_num

lemma nested_sampling_trivial_eval :
    nested_sampling 1 0 2 [[0], [0]] (fun _ => ([], fun _ => [])) 1 =
      some { probability := 1, K := 0, thresholds := [0], vars := [none],
             accept_rates := [], final_samples := [[0], [0]] } := by
  simp only [nested_sampling, runLoop, levelStep, npMedian_stuck, var_median_stuck]
  norm_num

/-- The result of the trivial converging run used as the C3 witness. -/
def trivialResult : RunResult :=
  { probability := 1, K := 0, thresholds := [0], vars := [none],
    accept_rates := [], final_samples := [[0], [0]] }

/-- Witness for C3: the valid-parameter run `n = 1`, `a = 0`, `N = 2` on
the population `[[0], [0]]` converges at once and its result satisfies the
claim with `K = 0`. -/
theorem run_returns_two_pow_K_witness :
    trivialResult.K = trivialResult.accept_rates.length ∧
    trivialResult.probability = (1/2 : ℚ) ^ trivialResult.K ∧
    0 < trivialResult.probability ∧ trivialResult.probability ≤ 1 :=
  run_returns_two_pow_K 1 0 2 [[0], [0]] (fun _ => ([], fun _ => [])) 1
    trivialResult nested_sampling_trivial_eval

/-! ### Equivalence of the recomputing and cached Gibbs sweeps -/

lemma gibbsStepC_corr (u : ℚ) (j n : ℕ) (hj : j < n) :
    ∀ (S : List (List ℚ × ℚ)) (p : List ℚ),
      (∀ rc ∈ S, rc.2 = rc.1.sum ∧ rc.1.length = n) →
      (gibbsStepC u j p S).map Prod.fst = gibbsStep u j p (S.map Prod.fst) ∧
      gibbsCountC u j p S = gibbsCount u j p (S.map Prod.fst) ∧
      ∀ rc ∈ gibbsStepC u j p S, rc.2 = rc.1.sum ∧ rc.1.length = n := by
  intro S
  induction S with
  | nil =>
    intro p _
    simp [gibbsStepC, gibbsStep, gibbsCountC, gibbsCount]
  | cons rc S ih =>
    intro p hinv
    cases p with
    | nil =>
      simp [gibbsStepC, gibbsStep, gibbsCountC, gibbsCount]
    | cons q p =>
      have hrc := hinv rc (List.mem_cons_self _ _)
      have hjr : j < rc.1.length := by rw [hrc.2]; exact hj
      have htail : ∀ x ∈ S, x.2 = x.1.sum ∧ x.1.length = n := fun x hx =>
        hinv x (List.mem_cons_of_mem _ hx)
      obtain ⟨hfst, hcnt, hpres⟩ := ih p htail
      have hacc : gibbsAcceptC u j rc q = gibbsAccept u j rc.1 q := by
        simp only [gibbsAcceptC, gibbsAccept, hrc.1]
      refine ⟨?_, ?_, ?_⟩
      · simp only [gibbsStepC, gibbsStep, List.zip_cons_cons, List.map_cons]
        rw [← gibbsStepC, ← gibbsStep, hfst]
        by_cases hc : gibbsAccept u j rc.1 q
        · rw [if_pos (by rw [hacc]; exact hc), if_pos hc]
        · rw [if_neg (by rw [hacc]; exact hc), if_neg hc]
      · have hcnt2 := hcnt
        simp only [gibbsCountC, gibbsCount] at hcnt2 ⊢
        simp only [List.map_cons, List.zip_cons_cons, List.countP_cons, hcnt2, hacc]
      · intro x hx
        simp only [gibbsStepC, List.zip_cons_cons, List.map_cons, List.mem_cons] at hx
        rcases hx with hx | hx
        · by_cases hc : gibbsAccept u j rc.1 q
          · rw [if_pos (by rw [hacc]; exact hc)] at hx
            rw [hx]
            refine ⟨?_, ?_⟩
            · rw [sum_set_eq rc.1 j q hjr, hrc.1]
            · rw [List.length_set]
              exact hrc.2
          · rw [if_neg (by rw [hacc]; exact hc)] at hx
            rw [hx]
            exact hrc
        · rw [← gibbsStepC] at hx
          exact hpres x hx

lemma gibbsSweepC_foldl_corr (u : ℚ) (n : ℕ) (props : ℕ → List ℚ) :
    ∀ L : List ℕ, (∀ j ∈ L, j < n) →
      ∀ (S : List (List ℚ × ℚ)) (c : ℕ),
        (∀ rc ∈ S, rc.2 = rc.1.sum ∧ rc.1.length = n) →
        (((L.foldl (fun s j =>
            (gibbsStepC u j (props j) s.1, s.2 + gibbsCountC u j (props j) s.1))
            (S, c)).1.map Prod.fst),
         (L.foldl (fun s j =>
            (gibbsStepC u j (props j) s.1, s.2 + gibbsCountC u j (props j) s.1))
            (S, c)).2) =
        L.foldl (fun s j =>
            (gibbsStep u j (props j) s.1, s.2 + gibbsCount u j (props j) s.1))
          (S.map Prod.fst, c) := by
  intro L
  induction L with
  | nil =>
    intro _ S c _
    rfl
  | cons j L ih =>
    intro hL S c hinv
    have hj : j < n := hL j (List.mem_cons_self _ _)
    have hcorr := gibbsStepC_corr u j n hj S (props j) hinv
    rw [List.foldl_cons, List.foldl_cons]
    have hrec := ih (fun k hk => hL k (List.mem_cons_of_mem _ hk))
      (gibbsStepC u j (props j) S) (c + gibbsCountC u j (props j) S) hcorr.2.2
    rw [hrec, hcorr.1, hcorr.2.1]

/-- C10: within one sweep each coordinate decision uses the statistic as
updated by prior coordinates; the recomputing sweep of
`nested_sampling.py` and the cached-statistic sweep of
`refined_nested_sampling.py` produce identical final populations and
identical acceptance counts on the same population, threshold, and
proposal sequence (rows having the full `n` coordinates). -/
theorem gibbs_sweeps_equivalent (u : ℚ) (n : ℕ) (props : ℕ → List ℚ) (X : Pop)
    (hrows : ∀ r ∈ X, r.length = n) :
    gibbsSweepC u n props X = gibbsSweep u n props X := by
  have hinv : ∀ rc ∈ X.map (fun r => (r, r.sum)), rc.2 = rc.1.sum ∧ rc.1.length = n := by
    intro rc hrc
    rw [List.mem_map] at hrc
    obtain ⟨r, hr, rfl⟩ := hrc
    exact ⟨rfl, hrows r hr⟩
  have hmapfst : (X.map fun r => (r, r.sum)).map Prod.fst = X := by
    rw [List.map_map]
    exact List.map_id _
  have h := gibbsSweepC_foldl_corr u n props (List.range n)
    (fun j hj => List.mem_range.mp hj) (X.map fun r => (r, r.sum)) 0 hinv
  rw [hmapfst] at h
  rw [gibbsSweepC, gibbsSweep]
  exact h

/-- Witness for C10: threshold `0`, one coordinate, proposals `[5, -9]`,
population `[[1], [2]]`. -/
theorem gibbs_sweeps_equivalent_witness :
    gibbsSweepC 0 1 (fun _ => [5, -9]) [[1], [2]] =
      gibbsSweep 0 1 (fun _ => [5, -9]) [[1], [2]] :=
  gibbs_sweeps_equivalent 0 1 (fun _ => [5, -9]) [[1], [2]]
    (by
      intro r hr
      simp only [List.mem_cons, List.not_mem_nil, or_false] at hr
      rcases hr with rfl | rfl <;> rfl)

/-! ### Monotonicity of the recorded thresholds -/

lemma rowSums_ne_nil (X : Pop) (h : X ≠ []) : rowSums X ≠ [] := by
  rw [rowSums]
  simpa using h

lemma le_median_of_rows (X : Pop) (c : ℚ) (h : ∀ r ∈ X, c ≤ r.sum)
    (hne : X ≠ []) : c ≤ npMedian (rowSums X) := by
  apply le_npMedian _ _ _ (rowSums_ne_nil X hne)
  intro x hx
  rw [rowSums, List.mem_map] at hx
  obtain ⟨r, hr, rfl⟩ := hx
  exact h r hr

lemma chain_append_threshold (l : List ℚ) (u : ℚ) (hl : l.Chain' (· ≤ ·))
    (hlast : ∀ c, l.getLast? = some c → c ≤ u) :
    (l ++ [u]).Chain' (· ≤ ·) := by
  rw [List.chain'_append]
  refine ⟨hl, List.chain'_singleton u, ?_⟩
  intro x hx y hy
  simp only [List.head?_cons, Option.mem_def, Option.some.injEq] at hy
  rw [← hy]
  exact hlast x hx

lemma gibbsStep_length (u : ℚ) (j : ℕ) (p : List ℚ) (X : Pop) :
    (gibbsStep u j p X).length = min X.length p.length := by
  rw [gibbsStep, List.length_map, List.length_zip]

lemma gibbsSweep_foldl_length (u : ℚ) (props : ℕ → List ℚ) (N : ℕ)
    (hp : ∀ j, (props j).length = N) :
    ∀ (L : List ℕ) (s : Pop × ℕ), s.1.length = N →
      ((L.foldl (fun s j =>
        (gibbsStep u j (props j) s.1, s.2 + gibbsCount u j (props j) s.1)) s).1).length = N := by
  intro L
  induction L with
  | nil => intro s hs; exact hs
  | cons j L ih =>
    intro s hs
    apply ih
    rw [gibbsStep_length, hs, hp j, Nat.min_self]

/-- Loop invariant of the level loop: the population always has `N` rows,
the recorded thresholds are non-decreasing, and every row of the current
population has statistic at least the last recorded threshold. -/
def LoopInv (N : ℕ) (st : LevelState) : Prop :=
  st.X.length = N ∧ st.thresholds.Chain' (· ≤ ·) ∧
  ∀ c, st.thresholds.getLast? = some c → ∀ r ∈ st.X, c ≤ r.sum

lemma levelStep_preserves_inv (n : ℕ) (target : ℚ) (N : ℕ) (idx : List ℕ)
    (props : ℕ → List ℚ) (st st2 : LevelState) (hN : 0 < N)
    (hidx : idx.length = N) (hprops : ∀ j, (props j).length = N)
    (h : levelStep n target N idx props st = .inl st2) (hinv : LoopInv N st) :
    LoopInv N st2 := by
  obtain ⟨hlen, hchain, hlast⟩ := hinv
  have hXne : st.X ≠ [] := by
    intro h0
    rw [h0] at hlen
    simp at hlen
    omega
  have hf := levelStep_inl_fields _ _ _ _ _ _ _ h
  have hsne : survivors (npMedian (rowSums st.X)) st.X ≠ [] :=
    survivors_median_ne_nil st.X hXne
  have hX1 : ∀ r ∈ selectionResample (npMedian (rowSums st.X)) st.X idx,
      npMedian (rowSums st.X) ≤ r.sum := fun r hr =>
    (selectionResample_rows _ _ _ hsne r hr).1
  refine ⟨?_, ?_, ?_⟩
  · rw [hf.1]
    apply gibbsSweep_foldl_length _ _ _ hprops
    rw [selectionResample_length, hidx]
  · rw [hf.2.1]
    apply chain_append_threshold _ _ hchain
    intro c hc
    exact le_median_of_rows st.X c (hlast c hc) hXne
  · intro c hc r hr
    rw [hf.2.1, List.getLast?_concat] at hc
    have hcu : c = npMedian (rowSums st.X) := by
      simpa using hc.symm
    rw [hcu]
    rw [hf.1] at hr
    exact gibbsSweep_foldl_preserves _ _ _ _ hX1 r hr

lemma runLoop_thresholds_chain (n : ℕ) (target : ℚ) (N : ℕ)
    (rand : ℕ → List ℕ × (ℕ → List ℚ)) (hN : 0 < N)
    (hidx : ∀ k, (rand k).1.length = N)
    (hprops : ∀ k j, ((rand k).2 j).length = N) :
    ∀ (fuel : ℕ) (st : LevelState) (res : RunResult),
      runLoop n target N rand fuel st = some res → LoopInv N st →
      res.thresholds.Chain' (· ≤ ·) := by
  intro fuel
  induction fuel with
  | zero => intro st res h _; cases h
  | succ k ih =>
    intro st res h hinv
    rw [runLoop] at h
    rcases hstep : levelStep n target N (rand st.iteration).1 (rand st.iteration).2 st
      with st2 | r
    · rw [hstep] at h
      exact ih st2 res h (levelStep_preserves_inv _ _ _ _ _ _ _ hN
        (hidx st.iteration) (hprops st.iteration) hstep hinv)
    · rw [hstep] at h
      have hres : r = res := by simpa using h
      have hf := levelStep_inr_fields _ _ _ _ _ _ _ hstep
      have hXne : st.X ≠ [] := by
        intro h0
        have := hinv.1
        rw [h0] at this
        simp at this
        omega
      rw [← hres, hf.2.2.1]
      apply chain_append_threshold _ _ hinv.2.1
      intro c hc
      exact le_median_of_rows st.X c (hinv.2.2 c hc) hXne

/-- C6: in every terminating run (population size `N > 0`, oracle drawing
`N` resampling indices and `N` proposals per coordinate each level), the
recorded sequence of median thresholds is non-decreasing across levels:
each level's threshold is at least the previous one, because the
population entering a level already satisfies the previous constraint. -/
theorem run_thresholds_nondecreasing (n : ℕ) (a : ℚ) (N : ℕ) (X0 : Pop)
    (rand : ℕ → List ℕ × (ℕ → List ℚ)) (fuel : ℕ) (res : RunResult)
    (hN : 0 < N) (hX0 : X0.length = N)
    (hidx : ∀ k, (rand k).1.length = N)
    (hprops : ∀ k j, ((rand k).2 j).length = N)
    (h : nested_sampling n a N X0 rand fuel = some res) :
    res.thresholds.Chain' (· ≤ ·) := by
  apply runLoop_thresholds_chain n ((n : ℚ) * a) N rand hN hidx hprops fuel _ res h
  refine ⟨hX0, List.chain'_nil, ?_⟩
  intro c hc
  cases hc

lemma nested_sampling_trivial_eval2 :
    nested_sampling 1 0 2 [[0], [0]] (fun _ => ([0, 0], fun _ => [0, 0])) 1 =
      some trivialResult := by
  simp only [nested_sampling, runLoop, levelStep, npMedian_stuck, var_median_stuck,
    trivialResult]
  norm_num

/-- Witness for C6: the converging run `n = 1`, `a = 0`, `N = 2` on the
population `[[0], [0]]` with a well-formed oracle records the
non-decreasing threshold list `[0]`. -/
theorem run_thresholds_nondecreasing_witness :
    trivialResult.thresholds.Chain' (· ≤ ·) :=
  run_thresholds_nondecreasing 1 0 2 [[0], [0]]
    (fun _ => ([0, 0], fun _ => [0, 0])) 1 trivialResult
    (by norm_num) rfl (fun _ => rfl) (fun _ _ => rfl)
    nested_sampling_trivial_eval2

/-! ### Percentile interpolation bounds and monotonicity -/

lemma virtual_index_nonneg (l : List ℚ) (q : ℚ) (hq : 0 ≤ q) (hne : l ≠ []) :
    0 ≤ ((l.length : ℚ) - 1) * q / 100 := by
  have hlen : 0 < l.length := List.length_pos.mpr hne
  have h1 : (1:ℚ) ≤ (l.length : ℚ) := by exact_mod_cast hlen
  apply div_nonneg (mul_nonneg (by linarith) hq) (by norm_num)

lemma percentile_frac_bounds (l : List ℚ) (q : ℚ) (hq : 0 ≤ q) (hne : l ≠ []) :
    0 ≤ ((l.length : ℚ) - 1) * q / 100 -
      (floorNat (((l.length : ℚ) - 1) * q / 100) : ℚ) ∧
    ((l.length : ℚ) - 1) * q / 100 -
      (floorNat (((l.length : ℚ) - 1) * q / 100) : ℚ) < 1 := by
  have h0 := virtual_index_nonneg l q hq hne
  rw [floorNat_eq_natFloor _ h0]
  constructor
  · exact sub_nonneg.mpr (Nat.floor_le h0)
  · have := Nat.lt_floor_add_one (((l.length : ℚ) - 1) * q / 100)
    linarith

lemma sortedStat_le_getD_succ (l : List ℚ) (i : ℕ) :
    sortedStat l i ≤ (sortQ l).getD (i + 1) (sortedStat l i) := by
  rcases Nat.lt_or_ge (i + 1) (sortQ l).length with hlt | hge
  · rw [List.getD_eq_getElem _ _ hlt]
    have hj : i + 1 < l.length := by rwa [sortQ_length] at hlt
    have h2 := sortedStat_mono l (i := i) (j := i + 1) (Nat.le_succ i) hj
    rwa [show sortedStat l (i + 1) = (sortQ l)[i + 1] from by
      rw [sortedStat, List.getD_eq_getElem _ _ hlt]] at h2
  · rw [List.getD_eq_default _ _ hge]

lemma sortedStat_le_percentile (l : List ℚ) (q : ℚ) (hq : 0 ≤ q) (hne : l ≠ []) :
    sortedStat l (floorNat (((l.length : ℚ) - 1) * q / 100)) ≤ percentile l q := by
  obtain ⟨hf0, _⟩ := percentile_frac_bounds l q hq hne
  have hba := sortedStat_le_getD_succ l (floorNat (((l.length : ℚ) - 1) * q / 100))
  rw [percentile]
  nlinarith [mul_nonneg hf0 (sub_nonneg.mpr hba)]

lemma percentile_le_getD_succ (l : List ℚ) (q : ℚ) (hq : 0 ≤ q) (hne : l ≠ []) :
    percentile l q ≤ (sortQ l).getD
      (floorNat (((l.length : ℚ) - 1) * q / 100) + 1)
      (sortedStat l (floorNat (((l.length : ℚ) - 1) * q / 100))) := by
  obtain ⟨hf0, hf1⟩ := percentile_frac_bounds l q hq hne
  have hba := sortedStat_le_getD_succ l (floorNat (((l.length : ℚ) - 1) * q / 100))
  rw [percentile]
  nlinarith [mul_nonneg (by linarith : (0:ℚ) ≤ 1 -
    (((l.length : ℚ) - 1) * q / 100 -
      (floorNat (((l.length : ℚ) - 1) * q / 100) : ℚ)))
    (sub_nonneg.mpr hba)]

lemma floorNat_virtual_le (l : List ℚ) (q : ℚ) (hq0 : 0 ≤ q) (hq1 : q ≤ 100)
    (hne : l ≠ []) :
    floorNat (((l.length : ℚ) - 1) * q / 100) ≤ l.length - 1 := by
  have hlen : 0 < l.length := List.length_pos.mpr hne
  have h0 := virtual_index_nonneg l q hq0 hne
  have h1 : (1:ℚ) ≤ (l.length : ℚ) := by exact_mod_cast hlen
  have hle : ((l.length : ℚ) - 1) * q / 100 ≤ ((l.length - 1 : ℕ) : ℚ) := by
    have hcast : ((l.length - 1 : ℕ) : ℚ) = (l.length : ℚ) - 1 := by
      push_cast [Nat.cast_sub hlen]
      ring
    rw [hcast, div_le_iff₀ (by norm_num : (0:ℚ) < 100)]
    nlinarith
  rw [floorNat_eq_natFloor _ h0]
  calc ⌊((l.length : ℚ) - 1) * q / 100⌋₊ ≤ ⌊((l.length - 1 : ℕ) : ℚ)⌋₊ :=
        Nat.floor_mono hle
    _ = l.length - 1 := Nat.floor_natCast _

lemma percentile_mono (l : List ℚ) (q1 q2 : ℚ) (h0 : 0 ≤ q1) (h12 : q1 ≤ q2)
    (h100 : q2 ≤ 100) (hne : l ≠ []) : percentile l q1 ≤ percentile l q2 := by
  have hlen : 0 < l.length := List.length_pos.mpr hne
  have hq2 : 0 ≤ q2 := le_trans h0 h12
  have hone : (1:ℚ) ≤ (l.length : ℚ) := by exact_mod_cast hlen
  have hh12 : ((l.length : ℚ) - 1) * q1 / 100 ≤ ((l.length : ℚ) - 1) * q2 / 100 := by
    apply div_le_div_of_nonneg_right ?_ (by norm_num)
    exact mul_le_mul_of_nonneg_left h12 (by linarith)
  have hi12 : floorNat (((l.length : ℚ) - 1) * q1 / 100) ≤
      floorNat (((l.length : ℚ) - 1) * q2 / 100) := by
    rw [floorNat_eq_natFloor _ (virtual_index_nonneg l q1 h0 hne),
      floorNat_eq_natFloor _ (virtual_index_nonneg l q2 hq2 hne)]
    exact Nat.floor_mono hh12
  have hi2lt : floorNat (((l.length : ℚ) - 1) * q2 / 100) < l.length := by
    have := floorNat_virtual_le l q2 hq2 h100 hne
    omega
  rcases Nat.eq_or_lt_of_le hi12 with heq | hlt
  · have hba := sortedStat_le_getD_succ l (floorNat (((l.length : ℚ) - 1) * q1 / 100))
    rw [percentile, percentile, ← heq]
    nlinarith [mul_le_mul_of_nonneg_right (sub_le_sub_right hh12
      ((floorNat (((l.length : ℚ) - 1) * q1 / 100) : ℚ)))
      (sub_nonneg.mpr hba)]
  · have h1 := percentile_le_getD_succ l q1 h0 hne
    have h2 := sortedStat_le_percentile l q2 hq2 hne
    have hmid : (sortQ l).getD (floorNat (((l.length : ℚ) - 1) * q1 / 100) + 1)
        (sortedStat l (floorNat (((l.length : ℚ) - 1) * q1 / 100))) ≤
        sortedStat l (floorNat (((l.length : ℚ) - 1) * q2 / 100)) := by
      have hin : floorNat (((l.length : ℚ) - 1) * q1 / 100) + 1 < (sortQ l).length := by
        rw [sortQ_length]
        omega
      rw [List.getD_eq_getElem _ _ hin]
      have hmono := sortedStat_mono l (i := floorNat (((l.length : ℚ) - 1) * q1 / 100) + 1)
        (j := floorNat (((l.length : ℚ) - 1) * q2 / 100)) hlt hi2lt
      rwa [show sortedStat l (floorNat (((l.length : ℚ) - 1) * q1 / 100) + 1)
          = (sortQ l)[floorNat (((l.length : ℚ) - 1) * q1 / 100) + 1] from by
        rw [sortedStat, List.getD_eq_getElem _ _ hin]] at hmono
    linarith

lemma percentile50_even (l : List ℚ) (he : l.length % 2 = 0) (h2 : 2 ≤ l.length) :
    percentile l 50 = sortedStat l (l.length / 2 - 1) +
      1/2 * (sortedStat l (l.length / 2) - sortedStat l (l.length / 2 - 1)) := by
  have hcast50 : ((l.length : ℚ) - 1) * 50 / 100 =
      (((l.length - 1) * 50 : ℕ) : ℚ) / ((100 : ℕ) : ℚ) := by
    push_cast [Nat.cast_sub (by omega : 1 ≤ l.length)]
    ring
  have hi50 : floorNat (((l.length : ℚ) - 1) * 50 / 100) = l.length / 2 - 1 := by
    rw [hcast50, floorNat_eq_div]
    omega
  have hfrac50 : ((l.length : ℚ) - 1) * 50 / 100 - ((l.length / 2 - 1 : ℕ) : ℚ) = 1/2 := by
    obtain ⟨k, hk⟩ : ∃ k, l.length = 2 * k := ⟨l.length / 2, by omega⟩
    have hk1 : 1 ≤ k := by omega
    have hnat : l.length / 2 - 1 = k - 1 := by omega
    rw [hnat, hk]
    push_cast [Nat.cast_sub hk1]
    ring
  have hidx : l.length / 2 - 1 + 1 = l.length / 2 := by omega
  have hin : l.length / 2 < (sortQ l).length := by
    rw [sortQ_length]
    omega
  rw [percentile, hi50, hfrac50, hidx, List.getD_eq_getElem _ _ hin,
    show (sortQ l)[l.length / 2] = sortedStat l (l.length / 2) from by
      rw [sortedStat, List.getD_eq_getElem _ _ hin]]

lemma even_no_tie_percentiles (l : List ℚ) (he : l.length % 2 = 0) (hne : l ≠ [])
    (hlt : sortedStat l (l.length / 2 - 1) < sortedStat l (l.length / 2)) :
    percentile l 50 < percentile l 75 := by
  have hlen : 0 < l.length := List.length_pos.mpr hne
  have h2 : 2 ≤ l.length := by omega
  have hq50 := percentile50_even l he h2
  rcases Nat.lt_or_ge l.length 4 with hsmall | hbig
  · -- l.length = 2
    have hn2 : l.length = 2 := by omega
    have hcast75 : ((l.length : ℚ) - 1) * 75 / 100 =
        (((l.length - 1) * 75 : ℕ) : ℚ) / ((100 : ℕ) : ℚ) := by
      push_cast [Nat.cast_sub (by omega : 1 ≤ l.length)]
      ring
    have hi75 : floorNat (((l.length : ℚ) - 1) * 75 / 100) = 0 := by
      rw [hcast75, floorNat_eq_div]
      omega
    have hfrac75 : ((l.length : ℚ) - 1) * 75 / 100 - ((0 : ℕ) : ℚ) = 3/4 := by
      rw [hn2]
      norm_num
    have hin : 1 < (sortQ l).length := by
      rw [sortQ_length]
      omega
    have hq75 : percentile l 75 = sortedStat l 0 +
        3/4 * (sortedStat l 1 - sortedStat l 0) := by
      rw [percentile, hi75, hfrac75, zero_add, List.getD_eq_getElem _ _ hin,
        show (sortQ l)[1] = sortedStat l 1 from by
          rw [sortedStat, List.getD_eq_getElem _ _ hin]]
    rw [hq50, hq75, hn2]
    norm_num
    rw [hn2] at hlt
    norm_num at hlt
    linarith
  · -- l.length ≥ 4
    have hcast75 : ((l.length : ℚ) - 1) * 75 / 100 =
        (((l.length - 1) * 75 : ℕ) : ℚ) / ((100 : ℕ) : ℚ) := by
      push_cast [Nat.cast_sub (by omega : 1 ≤ l.length)]
      ring
    have hi75ge : l.length / 2 ≤ floorNat (((l.length : ℚ) - 1) * 75 / 100) := by
      rw [hcast75, floorNat_eq_div]
      omega
    have hi75lt : floorNat (((l.length : ℚ) - 1) * 75 / 100) < l.length := by
      have := floorNat_virtual_le l 75 (by norm_num) (by norm_num) hne
      omega
    have hchain : sortedStat l (l.length / 2) ≤ percentile l 75 := by
      calc sortedStat l (l.length / 2)
          ≤ sortedStat l (floorNat (((l.length : ℚ) - 1) * 75 / 100)) :=
            sortedStat_mono l hi75ge hi75lt
        _ ≤ percentile l 75 := sortedStat_le_percentile l 75 (by norm_num) hne
    rw [hq50]
    linarith

/-! ### Finiteness of the variance estimate -/

lemma percentile_quad75 : percentile [0, 1, 1, 2] 75 = 5/4 := by
  have hf : floorNat ((9:ℚ)/4) = 2 := floorNat_eval _ 9 4 (by norm_num)
  norm_num [percentile, hf, sortedStat, sortQ, List.insertionSort, List.orderedInsert]

lemma percentile_quad50 : percentile [0, 1, 1, 2] 50 = 1 := by
  have hf : floorNat ((3:ℚ)/2) = 1 := floorNat_eval _ 3 2 (by norm_num)
  norm_num [percentile, hf, sortedStat, sortQ, List.insertionSort, List.orderedInsert]

/-- C8 counterexample: the statistic vector `[0, 1, 1, 2]` has its two
central order statistics tied (both `1`), yet the variance of the median
is finite (`Q75 = 5/4 > Q50 = 1`), refuting that the variance is `+∞`
exactly when the two central order statistics are equal. -/
theorem central_tie_but_variance_finite :
    ([0, 1, 1, 2] : List ℚ).length % 2 = 0 ∧
    sortedStat [0, 1, 1, 2] (([0, 1, 1, 2] : List ℚ).length / 2 - 1) =
      sortedStat [0, 1, 1, 2] (([0, 1, 1, 2] : List ℚ).length / 2) ∧
    var_median [0, 1, 1, 2] ≠ none := by
  refine ⟨rfl, ?_, ?_⟩
  · norm_num [sortedStat, sortQ, List.insertionSort, List.orderedInsert]
  · rw [var_median]
    rw [if_pos (by rw [percentile_quad75, percentile_quad50]; norm_num)]
    exact Option.some_ne_none _

/-- C8 (amended): the variance-of-median is finite whenever the (even
length) input vector has no tie at its two central order statistics, and
is `+∞` (here `none`) exactly when the interpolated 75th percentile
equals the interpolated 50th percentile — a central tie alone does not
force `+∞`. -/
theorem var_median_finite_conditions (l : List ℚ) (hne : l ≠ []) :
    (l.length % 2 = 0 →
      sortedStat l (l.length / 2 - 1) < sortedStat l (l.length / 2) →
      (var_median l).isSome) ∧
    (var_median l = none ↔ percentile l 75 = percentile l 50) := by
  constructor
  · intro he hlt
    have h := even_no_tie_percentiles l he hne hlt
    rw [var_median, if_pos h]
    rfl
  · have hmono := percentile_mono l 50 75 (by norm_num) (by norm_num)
      (by norm_num) hne
    rw [var_median]
    split
    · rename_i h
      constructor
      · intro hc
        cases hc
      · intro heq
        rw [heq] at h
        exact absurd h (lt_irrefl _)
    · rename_i h
      exact ⟨fun _ => le_antisymm (not_lt.mp h) hmono, fun _ => rfl⟩

/-- Witness for C8 (amended) on `[0, 1, 2, 3]`: untied central order
statistics give a finite variance, and the degeneracy characterisation
holds. -/
theorem var_median_finite_conditions_witness :
    (var_median [0, 1, 2, 3]).isSome ∧
    (var_median [0, 1, 2, 3] = none ↔
      percentile [0, 1, 2, 3] 75 = percentile [0, 1, 2, 3] 50) := by
  have h := var_median_finite_conditions [0, 1, 2, 3] (by simp)
  refine ⟨h.1 rfl ?_, h.2⟩
  norm_num [sortedStat, sortQ, List.insertionSort, List.orderedInsert]
